import Mathlib

/-!
Verification of the chat-log viewer's core pipeline (src/server.js and the
client find script) against its specification.  JavaScript strings are
modelled as lists of characters (`JStr`); JavaScript's stable
`Array.prototype.sort` is modelled by a stable insertion sort (`sortJS`);
JSON documents are modelled structurally, with absent fields as `none`
(matching `JSON.stringify` dropping `undefined` properties).
-/

/-- A JavaScript string, modelled as its character sequence. -/
abbrev JStr := List Char

/-- Convert a Lean string literal to the model's string type. -/
def sLit (s : String) : JStr := s.toList

/-- JavaScript whitespace for `trim()` and `\s` (ASCII cases). -/
def isWS (c : Char) : Bool := c.isWhitespace

/-- Models `String.prototype.trim()`. -/
def jsTrim (s : JStr) : JStr :=
  ((s.dropWhile isWS).reverse.dropWhile isWS).reverse

/-- Models `String.prototype.toLowerCase()` on ASCII data (also used for
the `i` regex flag). -/
def toLowerJ (s : JStr) : JStr := s.map Char.toLower

/-- Models `str.split('\n')`: empty string gives one empty piece, and
empty pieces between separators are kept. -/
def splitNl : JStr → List JStr
  | [] => [[]]
  | c :: rest =>
    if c = '\n' then [] :: splitNl rest
    else
      match splitNl rest with
      | [] => [[c]]
      | p :: ps => (c :: p) :: ps

/-- Models `lines.join('\n')`. -/
def joinNl (ls : List JStr) : JStr := (ls.intersperse ['\n']).flatten

/-! ### A model of JavaScript's stable `Array.prototype.sort`

`r x y` means "x may come before y": with a comparator `c`, `r x y`
is `¬ (c y x < 0)`, so elements comparing equal keep their original
relative order (ECMAScript guarantees a stable sort). -/

/-- Insert an element into an already sorted list, before the first
element it may precede. -/
def insertJS (r : α → α → Bool) (x : α) : List α → List α
  | [] => [x]
  | y :: ys => if r x y then x :: y :: ys else y :: insertJS r x ys

/-- Stable insertion sort modelling `Array.prototype.sort(comparator)`. -/
def sortJS (r : α → α → Bool) : List α → List α
  | [] => []
  | x :: xs => insertJS r x (sortJS r xs)

theorem insertJS_perm (r : α → α → Bool) (x : α) (l : List α) :
    (insertJS r x l).Perm (x :: l) := by
  induction l with
  | nil => simp [insertJS]
  | cons y ys ih =>
    simp only [insertJS]
    by_cases h : r x y = true
    · simp [h]
    · simp only [h, if_false]
      exact (ih.cons y).trans (List.Perm.swap x y ys)

theorem sortJS_perm (r : α → α → Bool) (l : List α) :
    (sortJS r l).Perm l := by
  induction l with
  | nil => simp [sortJS]
  | cons x xs ih =>
    exact (insertJS_perm r x (sortJS r xs)).trans (ih.cons x)

theorem mem_insertJS (r : α → α → Bool) (x : α) (l : List α) (z : α) :
    z ∈ insertJS r x l ↔ z = x ∨ z ∈ l := by
  have := (insertJS_perm r x l).mem_iff (a := z)
  simpa using this

theorem insertJS_pairwise (r : α → α → Bool)
    (htot : ∀ a b, r a b = true ∨ r b a = true)
    (htrans : ∀ a b c, r a b = true → r b c = true → r a c = true)
    (x : α) (l : List α) (hl : l.Pairwise (fun a b => r a b = true)) :
    (insertJS r x l).Pairwise (fun a b => r a b = true) := by
  induction l with
  | nil => simp [insertJS]
  | cons y ys ih =>
    rcases List.pairwise_cons.mp hl with ⟨hy, hys⟩
    simp only [insertJS]
    by_cases h : r x y = true
    · rw [if_pos h]
      refine List.Pairwise.cons ?_ (List.Pairwise.cons hy hys)
      intro z hz
      rcases List.mem_cons.mp hz with hz | hz
      · exact hz ▸ h
      · exact htrans x y z h (hy z hz)
    · have hyx : r y x = true := (htot x y).resolve_left h
      simp only [h, if_false]
      refine List.Pairwise.cons ?_ (ih hys)
      intro z hz
      rcases (mem_insertJS r x ys z).mp hz with hz | hz
      · exact hz ▸ hyx
      · exact hy z hz

theorem sortJS_pairwise (r : α → α → Bool)
    (htot : ∀ a b, r a b = true ∨ r b a = true)
    (htrans : ∀ a b c, r a b = true → r b c = true → r a c = true)
    (l : List α) :
    (sortJS r l).Pairwise (fun a b => r a b = true) := by
  induction l with
  | nil => simp [sortJS]
  | cons x xs ih => exact insertJS_pairwise r htot htrans x (sortJS r xs) ih

theorem insertJS_filter_of_class (r : α → α → Bool) (p : α → Bool)
    (x : α) (l : List α) (h : ∀ y, p x = true → p y = true → r x y = true) :
    (insertJS r x l).filter p = (x :: l).filter p := by
  induction l with
  | nil => simp [insertJS]
  | cons y ys ih =>
    simp only [insertJS]
    by_cases hr : r x y = true
    · simp [hr]
    · simp only [hr, if_false]
      by_cases hpx : p x = true
      · have hpy : p y = false := by
          cases hy : p y
          · rfl
          · exact absurd (h y hpx hy) hr
        simp only [List.filter_cons, hpy, hpx, Bool.false_eq_true, if_false, if_true] at *
        simpa [hpy] using ih
      · have hpx' : p x = false := Bool.not_eq_true _ ▸ hpx
        simp only [List.filter_cons, hpx', Bool.false_eq_true, if_false] at *
        cases hpy : p y
        · simpa [hpy] using ih
        · simpa [hpy] using ih

theorem sortJS_filter_of_class (r : α → α → Bool) (p : α → Bool)
    (h : ∀ x y, p x = true → p y = true → r x y = true) (l : List α) :
    (sortJS r l).filter p = l.filter p := by
  induction l with
  | nil => simp [sortJS]
  | cons x xs ih =>
    have step := insertJS_filter_of_class r p x (sortJS r xs) (fun y => h x y)
    calc (insertJS r x (sortJS r xs)).filter p
        = (x :: sortJS r xs).filter p := step
      _ = (x :: xs).filter p := by
          simp only [List.filter_cons]
          rw [ih]

/-! ### Search match counting (find script `countMatches`, server.js
highlighting)

The find script's `countMatches` builds
`new RegExp(escapeRegex(searchTerm), 'gi')` and counts
`text.match(regex)`; an empty term returns 0 via the `if (!searchTerm)`
guard.  `escapeRegex` there was evidently meant to turn the term into a
regex literal, but as written it only rewrites metacharacter+`\`+`]`
triples (`escapeRegexFind` below models it exactly; the slip is the C6
record), so the deployed count is a raw-regex match count.
`countMatches` below is the intended case-insensitive literal count —
the quantity the spec describes, which the deployed code computes
exactly for metacharacter-free terms, and which the correctly escaped
regex of server.js's `highlightSearchTerm` matches (C8 relates the
two). -/

/-- Case-insensitive literal match test at the current position (models a
regex-escaped pattern with the `i` flag). -/
def ciPrefix (pat s : JStr) : Bool := (toLowerJ pat).isPrefixOf (toLowerJ s)

/-- Scan for leftmost non-overlapping case-insensitive occurrences of the
non-empty pattern `p :: ps` and count them. -/
def countScan (p : Char) (ps : JStr) : JStr → Nat
  | [] => 0
  | c :: rest =>
    if ciPrefix (p :: ps) (c :: rest) then
      1 + countScan p ps (rest.drop ps.length)
    else
      countScan p ps rest
termination_by l => l.length
decreasing_by
  · simp only [List.length_drop, List.length_cons]
    omega
  · simp only [List.length_cons]
    omega

/-- The case-insensitive literal match count: what the find script's
`countMatches(text, searchTerm)` computes under the intended (correct)
escaping; the empty-term case is its `if (!searchTerm) return 0`
guard. -/
def countMatches (text searchTerm : JStr) : Nat :=
  match searchTerm with
  | [] => 0
  | p :: ps => countScan p ps text

/-! ### Search highlighting (src/server.js, `highlightSearchTerm`)

The highlighter wraps each case-insensitive literal match in
`<a id="search_N" class="search-highlight">...</a>`, incrementing the
shared `globalSearchCounter`; lines whose trimmed text starts with
`### ` are returned unchanged.  The model additionally returns the list
of counter values embedded in emitted anchors, in emission order. -/

/-- One decimal digit character. -/
def digitChar (n : Nat) : Char := Char.ofNat (48 + n)

/-- Decimal rendering of a counter value, as `${globalSearchCounter}`
interpolates it. -/
def natChars (n : Nat) : JStr :=
  if n < 10 then [digitChar n]
  else natChars (n / 10) ++ [digitChar (n % 10)]
termination_by n
decreasing_by
  exact Nat.div_lt_self (by omega) (by omega)

/-- The opening anchor tag emitted for match number `n`. -/
def anchorOpenTag (n : Nat) : JStr :=
  sLit "<a id=\"search_" ++ natChars n ++ sLit "\" class=\"search-highlight\">"

/-- The closing anchor tag. -/
def anchorCloseTag : JStr := sLit "</a>"

/-- Models `line.replace(regex, match => ...)` for the non-empty pattern
`p :: ps`: rewrites each leftmost non-overlapping case-insensitive match,
threading the shared counter; also returns the anchor numbers emitted. -/
def highlightScan (p : Char) (ps : JStr) (counter : Nat) :
    JStr → JStr × Nat × List Nat
  | [] => ([], counter, [])
  | c :: rest =>
    if ciPrefix (p :: ps) (c :: rest) then
      let matched := (c :: rest).take (p :: ps).length
      let next := highlightScan p ps (counter + 1) (rest.drop ps.length)
      (anchorOpenTag (counter + 1) ++ matched ++ anchorCloseTag ++ next.1,
        next.2.1, (counter + 1) :: next.2.2)
    else
      let next := highlightScan p ps counter rest
      (c :: next.1, next.2.1, next.2.2)
termination_by l => l.length
decreasing_by
  · simp only [List.length_drop, List.length_cons]
    omega
  · simp only [List.length_cons]
    omega

/-- Is this a file-heading line (`line.trim().startsWith('### ')`)? -/
def isHeadingLine (line : JStr) : Bool := (sLit "### ").isPrefixOf (jsTrim line)

/-- Per-line processing of `highlightSearchTerm`: heading lines are
returned unchanged, other lines are rewritten. -/
def processLine (p : Char) (ps : JStr) (counter : Nat) (line : JStr) :
    JStr × Nat × List Nat :=
  if isHeadingLine line then (line, counter, [])
  else highlightScan p ps counter line

/-- `lines.map(...)` with the shared counter threaded through. -/
def processLines (p : Char) (ps : JStr) (counter : Nat) :
    List JStr → List JStr × Nat × List Nat
  | [] => ([], counter, [])
  | l :: ls =>
    let r := processLine p ps counter l
    let rest := processLines p ps r.2.1 ls
    (r.1 :: rest.1, rest.2.1, r.2.2 ++ rest.2.2)

/-- Models `highlightSearchTerm(text, searchTerm)` (src/server.js): guard
for a falsy term or text, split into lines, process, re-join. -/
def highlightSearchTerm (text searchTerm : JStr) (counter : Nat) :
    JStr × Nat × List Nat :=
  match searchTerm with
  | [] => (text, counter, [])
  | p :: ps =>
    if text = [] then (text, counter, [])
    else
      let r := processLines p ps counter (splitNl text)
      (joinNl r.1, r.2.1, r.2.2)

/-- Models the loop over `messages` in the chat route: each message's
rendered text (its `htmlContent` when present, else its `content`) is
highlighted in order with the single shared counter. -/
def highlightTextsFrom (searchTerm : JStr) (counter : Nat) :
    List JStr → List JStr × Nat × List Nat
  | [] => ([], counter, [])
  | t :: ts =>
    let r := highlightSearchTerm t searchTerm counter
    let rest := highlightTextsFrom searchTerm r.2.1 ts
    (r.1 :: rest.1, rest.2.1, r.2.2 ++ rest.2.2)

/-- Highlighting a whole rendered conversation: `globalSearchCounter`
starts at 0 and is shared across all messages. -/
def highlightConversation (texts : List JStr) (searchTerm : JStr) :
    List JStr × Nat × List Nat :=
  highlightTextsFrom searchTerm 0 texts

/-! ### Properties of the highlight counter and anchor numbers -/

/-- The number of highlight anchors `highlightSearchTerm` emits for one
text: the match count of every non-heading line. -/
def highlightTotal (text searchTerm : JStr) : Nat :=
  match searchTerm with
  | [] => 0
  | _ :: _ =>
    (((splitNl text).filter (fun l => !isHeadingLine l)).map
      (fun l => countMatches l searchTerm)).sum

theorem highlightScan_counter_ids (p : Char) (ps : JStr) :
    ∀ (counter : Nat) (l : JStr),
      (highlightScan p ps counter l).2.1 = counter + countScan p ps l ∧
      (highlightScan p ps counter l).2.2 =
        List.range' (counter + 1) (countScan p ps l) := by
  intro counter l
  induction counter, l using highlightScan.induct p ps with
  | case1 c => simp [highlightScan, countScan]
  | case2 counter c rest h ih =>
    rw [highlightScan, countScan, if_pos h, if_pos h]
    refine ⟨?_, ?_⟩
    · simp only [ih.1]
      omega
    · simp only [ih.2, Nat.add_comm 1 (countScan p ps (rest.drop ps.length)),
        List.range'_succ]
  | case3 counter c rest h ih =>
    rw [highlightScan, countScan, if_neg h, if_neg h]
    exact ih

/-- Anchors emitted for one line: none on a heading line, one per match
otherwise. -/
def perLineCount (p : Char) (ps : JStr) (line : JStr) : Nat :=
  if isHeadingLine line then 0 else countScan p ps line

theorem processLine_spec (p : Char) (ps : JStr) (counter : Nat) (line : JStr) :
    (processLine p ps counter line).2.1 = counter + perLineCount p ps line ∧
    (processLine p ps counter line).2.2 =
      List.range' (counter + 1) (perLineCount p ps line) := by
  unfold processLine perLineCount
  by_cases h : isHeadingLine line = true
  · simp [h]
  · simp only [h, Bool.false_eq_true, if_false]
    exact highlightScan_counter_ids p ps counter line

/-- Total anchors emitted for a list of lines. -/
def linesTotal (p : Char) (ps : JStr) (lines : List JStr) : Nat :=
  (lines.map (perLineCount p ps)).sum

theorem rangeGlue (s k1 k2 : Nat) :
    List.range' s k1 ++ List.range' (s + k1) k2 = List.range' s (k1 + k2) := by
  have h := List.range'_append s k1 k2 1
  simp only [Nat.one_mul, Nat.add_comm k2 k1] at h
  exact h

theorem processLines_spec (p : Char) (ps : JStr) :
    ∀ (lines : List JStr) (counter : Nat),
      (processLines p ps counter lines).2.1 = counter + linesTotal p ps lines ∧
      (processLines p ps counter lines).2.2 =
        List.range' (counter + 1) (linesTotal p ps lines) := by
  intro lines
  induction lines with
  | nil => intro counter; simp [processLines, linesTotal]
  | cons l ls ih =>
    intro counter
    have hl := processLine_spec p ps counter l
    have hrest := ih ((processLine p ps counter l).2.1)
    have h1 : (processLines p ps counter (l :: ls)).2.1
        = (processLines p ps ((processLine p ps counter l).2.1) ls).2.1 := rfl
    have h2 : (processLines p ps counter (l :: ls)).2.2
        = (processLine p ps counter l).2.2
          ++ (processLines p ps ((processLine p ps counter l).2.1) ls).2.2 := rfl
    have htot : linesTotal p ps (l :: ls)
        = perLineCount p ps l + linesTotal p ps ls := by
      simp [linesTotal]
    constructor
    · rw [h1, hrest.1, hl.1, htot]
      omega
    · rw [h2, hrest.2, hl.2, hl.1, htot]
      rw [show counter + perLineCount p ps l + 1
          = counter + 1 + perLineCount p ps l from by omega]
      exact rangeGlue (counter + 1) (perLineCount p ps l) (linesTotal p ps ls)

theorem linesTotal_filter (p : Char) (ps : JStr) (lines : List JStr) :
    linesTotal p ps lines =
      ((lines.filter (fun l => !isHeadingLine l)).map
        (fun l => countMatches l (p :: ps))).sum := by
  induction lines with
  | nil => simp [linesTotal]
  | cons l ls ih =>
    simp only [linesTotal, List.map_cons, List.sum_cons, List.filter_cons] at *
    by_cases h : isHeadingLine l = true
    · simp [perLineCount, h, ih]
    · simp only [Bool.not_eq_true] at h
      simp [perLineCount, h, ih, countMatches]

theorem highlightSearchTerm_spec (text searchTerm : JStr) (counter : Nat) :
    (highlightSearchTerm text searchTerm counter).2.1 =
      counter + highlightTotal text searchTerm ∧
    (highlightSearchTerm text searchTerm counter).2.2 =
      List.range' (counter + 1) (highlightTotal text searchTerm) := by
  match searchTerm with
  | [] => simp [highlightSearchTerm, highlightTotal]
  | p :: ps =>
    simp only [highlightSearchTerm, highlightTotal]
    by_cases h : text = []
    · subst h
      simp [splitNl, isHeadingLine, jsTrim, sLit, List.isPrefixOf, countMatches,
        countScan, List.dropWhile]
    · simp only [h, if_false]
      have hp := processLines_spec p ps (splitNl text) counter
      rw [hp.1, hp.2, linesTotal_filter]
      exact ⟨rfl, rfl⟩

/-- Total anchors emitted for a whole conversation. -/
def convTotal (texts : List JStr) (searchTerm : JStr) : Nat :=
  (texts.map (fun t => highlightTotal t searchTerm)).sum

theorem highlightTextsFrom_spec (searchTerm : JStr) :
    ∀ (texts : List JStr) (counter : Nat),
      (highlightTextsFrom searchTerm counter texts).2.1 =
        counter + convTotal texts searchTerm ∧
      (highlightTextsFrom searchTerm counter texts).2.2 =
        List.range' (counter + 1) (convTotal texts searchTerm) := by
  intro texts
  induction texts with
  | nil => intro counter; simp [highlightTextsFrom, convTotal]
  | cons t ts ih =>
    intro counter
    have ht := highlightSearchTerm_spec t searchTerm counter
    have hrest := ih ((highlightSearchTerm t searchTerm counter).2.1)
    have h1 : (highlightTextsFrom searchTerm counter (t :: ts)).2.1
        = (highlightTextsFrom searchTerm
            ((highlightSearchTerm t searchTerm counter).2.1) ts).2.1 := rfl
    have h2 : (highlightTextsFrom searchTerm counter (t :: ts)).2.2
        = (highlightSearchTerm t searchTerm counter).2.2
          ++ (highlightTextsFrom searchTerm
            ((highlightSearchTerm t searchTerm counter).2.1) ts).2.2 := rfl
    have htot : convTotal (t :: ts) searchTerm
        = highlightTotal t searchTerm + convTotal ts searchTerm := by
      simp [convTotal]
    constructor
    · rw [h1, hrest.1, ht.1, htot]
      omega
    · rw [h2, hrest.2, ht.2, ht.1, htot]
      rw [show counter + highlightTotal t searchTerm + 1
          = counter + 1 + highlightTotal t searchTerm from by omega]
      exact rangeGlue (counter + 1) (highlightTotal t searchTerm)
        (convTotal ts searchTerm)

/-- C7: for every conversation rendered with a search term, the highlight
anchor numbers produced (search_1, search_2, ...) are unique within the
whole rendered conversation and monotonically increasing in document
order, because the single shared counter is incremented across all
messages. -/
theorem C7_highlight_anchor_ids_unique (texts : List JStr) (searchTerm : JStr) :
    ((highlightConversation texts searchTerm).2.2).Pairwise (· < ·) ∧
    ((highlightConversation texts searchTerm).2.2).Nodup := by
  have h := (highlightTextsFrom_spec searchTerm texts 0).2
  unfold highlightConversation
  rw [h]
  constructor
  · exact List.pairwise_lt_range' 1 (convTotal texts searchTerm)
  · exact List.nodup_range' 1 (convTotal texts searchTerm)

/-! ### Heading lines are never rewritten (support for C8) -/

theorem digitChar_ne_nl (k : Nat) (h : k < 10) : digitChar k ≠ '\n' := by
  interval_cases k <;> decide

theorem natChars_ne_nl : ∀ n : Nat, ∀ c ∈ natChars n, c ≠ '\n' := by
  intro n
  induction n using Nat.strong_induction_on with
  | _ n ih =>
    intro c hc
    by_cases h : n < 10
    · rw [natChars, if_pos h] at hc
      simp only [List.mem_singleton] at hc
      exact hc ▸ digitChar_ne_nl n h
    · rw [natChars, if_neg h] at hc
      rcases List.mem_append.mp hc with hc | hc
      · exact ih (n / 10) (Nat.div_lt_self (by omega) (by omega)) c hc
      · simp only [List.mem_singleton] at hc
        exact hc ▸ digitChar_ne_nl (n % 10) (Nat.mod_lt _ (by omega))

theorem anchorOpenTag_no_nl (n : Nat) : '\n' ∉ anchorOpenTag n := by
  intro hmem
  unfold anchorOpenTag at hmem
  rcases List.mem_append.mp hmem with hmem | hmem
  · rcases List.mem_append.mp hmem with hmem | hmem
    · revert hmem
      decide
    · exact natChars_ne_nl n '\n' hmem rfl
  · revert hmem
    decide

theorem anchorCloseTag_no_nl : '\n' ∉ anchorCloseTag := by decide

theorem highlightScan_no_nl (p : Char) (ps : JStr) :
    ∀ (counter : Nat) (l : JStr), '\n' ∉ l →
      '\n' ∉ (highlightScan p ps counter l).1 := by
  intro counter l
  induction counter, l using highlightScan.induct p ps with
  | case1 c => intro _ h; simp [highlightScan] at h
  | case2 counter c rest h ih =>
    intro hnl hmem
    rw [highlightScan, if_pos h] at hmem
    simp only [List.append_assoc, List.mem_append] at hmem
    rcases hmem with hmem | hmem | hmem | hmem
    · exact anchorOpenTag_no_nl _ hmem
    · exact hnl (List.take_subset _ _ hmem)
    · exact anchorCloseTag_no_nl hmem
    · refine ih ?_ hmem
      intro hc
      exact hnl (List.mem_cons_of_mem c (List.drop_subset _ _ hc))
  | case3 counter c rest h ih =>
    intro hnl hmem
    rw [highlightScan, if_neg h] at hmem
    rcases List.mem_cons.mp hmem with hmem | hmem
    · exact hnl (hmem ▸ List.mem_cons_self c rest)
    · exact ih (fun hc => hnl (List.mem_cons_of_mem c hc)) hmem

theorem splitNl_no_nl : ∀ s : JStr, ∀ piece ∈ splitNl s, '\n' ∉ piece := by
  intro s
  induction s with
  | nil =>
    intro piece hp
    simp only [splitNl, List.mem_singleton] at hp
    simp [hp]
  | cons c rest ih =>
    intro piece hp
    rw [splitNl] at hp
    by_cases hc : c = '\n'
    · rw [if_pos hc] at hp
      rcases List.mem_cons.mp hp with hp | hp
      · simp [hp]
      · exact ih piece hp
    · rw [if_neg hc] at hp
      rcases hsp : splitNl rest with _ | ⟨q, qs⟩
      · rw [hsp] at hp
        simp only [List.mem_singleton] at hp
        subst hp
        intro hmem
        rcases List.mem_singleton.mp hmem with h
        exact hc h.symm
      · rw [hsp] at hp
        rcases List.mem_cons.mp hp with hp | hp
        · subst hp
          intro hmem
          rcases List.mem_cons.mp hmem with h | h
          · exact hc h.symm
          · exact ih q (hsp ▸ List.mem_cons_self q qs) h
        · exact ih piece (hsp ▸ List.mem_cons_of_mem q hp)

theorem splitNl_ne_nil (s : JStr) : splitNl s ≠ [] := by
  cases s with
  | nil => simp [splitNl]
  | cons c rest =>
    rw [splitNl]
    by_cases hc : c = '\n'
    · simp [hc]
    · rw [if_neg hc]
      rcases hsp : splitNl rest with _ | ⟨q, qs⟩
      · simp
      · simp

theorem splitNl_of_no_nl : ∀ p : JStr, '\n' ∉ p → splitNl p = [p] := by
  intro p
  induction p with
  | nil => intro _; rfl
  | cons c rest ih =>
    intro h
    have hc : ¬ c = '\n' := fun hcc => h (hcc ▸ List.mem_cons_self c rest)
    rw [splitNl, if_neg hc, ih (fun hm => h (List.mem_cons_of_mem c hm))]

theorem splitNl_append_nl : ∀ p t : JStr, '\n' ∉ p →
    splitNl (p ++ '\n' :: t) = p :: splitNl t := by
  intro p
  induction p with
  | nil =>
    intro t _
    simp only [List.nil_append]
    rw [splitNl, if_pos rfl]
  | cons c rest ih =>
    intro t h
    have hc : ¬ c = '\n' := fun hcc => h (hcc ▸ List.mem_cons_self c rest)
    have hrest := ih t (fun hm => h (List.mem_cons_of_mem c hm))
    simp only [List.cons_append]
    rw [splitNl, if_neg hc, hrest]

theorem joinNl_cons_cons (p q : JStr) (qs : List JStr) :
    joinNl (p :: q :: qs) = p ++ '\n' :: joinNl (q :: qs) := by
  simp [joinNl, List.intersperse]

theorem splitNl_joinNl : ∀ pieces : List JStr, pieces ≠ [] →
    (∀ p ∈ pieces, '\n' ∉ p) → splitNl (joinNl pieces) = pieces := by
  intro pieces
  induction pieces with
  | nil => intro h; exact absurd rfl h
  | cons p ps ih =>
    intro _ hno
    cases ps with
    | nil =>
      have : joinNl [p] = p := by simp [joinNl]
      rw [this, splitNl_of_no_nl p (hno p (List.mem_cons_self p []))]
    | cons q qs =>
      rw [joinNl_cons_cons,
        splitNl_append_nl p (joinNl (q :: qs)) (hno p (List.mem_cons_self p _)),
        ih (by simp) (fun x hx => hno x (List.mem_cons_of_mem p hx))]

theorem processLine_fst_heading (p : Char) (ps : JStr) (counter : Nat)
    (line : JStr) (h : isHeadingLine line = true) :
    (processLine p ps counter line).1 = line := by
  unfold processLine
  rw [if_pos h]

theorem processLines_forall₂ (p : Char) (ps : JStr) :
    ∀ (lines : List JStr) (counter : Nat),
      List.Forall₂ (fun lin lout => isHeadingLine lin = true → lout = lin)
        lines (processLines p ps counter lines).1 := by
  intro lines
  induction lines with
  | nil => intro counter; simp [processLines]
  | cons l ls ih =>
    intro counter
    have hcons : (processLines p ps counter (l :: ls)).1 =
        (processLine p ps counter l).1 ::
          (processLines p ps ((processLine p ps counter l).2.1) ls).1 := rfl
    rw [hcons]
    exact List.Forall₂.cons
      (fun h => processLine_fst_heading p ps counter l h)
      (ih ((processLine p ps counter l).2.1))

theorem processLines_no_nl (p : Char) (ps : JStr) :
    ∀ (lines : List JStr) (counter : Nat),
      (∀ l ∈ lines, '\n' ∉ l) →
      ∀ out ∈ (processLines p ps counter lines).1, '\n' ∉ out := by
  intro lines
  induction lines with
  | nil => intro counter _ out hout; simp [processLines] at hout
  | cons l ls ih =>
    intro counter hno out hout
    have hcons : (processLines p ps counter (l :: ls)).1 =
        (processLine p ps counter l).1 ::
          (processLines p ps ((processLine p ps counter l).2.1) ls).1 := rfl
    rw [hcons] at hout
    rcases List.mem_cons.mp hout with hout | hout
    · subst hout
      unfold processLine
      by_cases hh : isHeadingLine l = true
      · rw [if_pos hh]
        exact hno l (List.mem_cons_self l ls)
      · rw [if_neg hh]
        exact highlightScan_no_nl p ps counter l (hno l (List.mem_cons_self l ls))
    · exact ih _ (fun x hx => hno x (List.mem_cons_of_mem l hx)) out hout

theorem processLines_ne_nil (p : Char) (ps : JStr) (counter : Nat)
    (l : JStr) (ls : List JStr) :
    (processLines p ps counter (l :: ls)).1 ≠ [] := by
  intro h
  have hcons : (processLines p ps counter (l :: ls)).1 =
      (processLine p ps counter l).1 ::
        (processLines p ps ((processLine p ps counter l).2.1) ls).1 := rfl
  rw [hcons] at h
  exact List.cons_ne_nil _ _ h

theorem processLines_length (p : Char) (ps : JStr) :
    ∀ (lines : List JStr) (counter : Nat),
      (processLines p ps counter lines).1.length = lines.length := by
  intro lines
  induction lines with
  | nil => intro counter; rfl
  | cons l ls ih =>
    intro counter
    have hcons : (processLines p ps counter (l :: ls)).1 =
        (processLine p ps counter l).1 ::
          (processLines p ps ((processLine p ps counter l).2.1) ls).1 := rfl
    rw [hcons, List.length_cons, List.length_cons, ih]

/-- C8: for every rendered text and search term, highlighting skips
file-heading lines — a line whose trimmed text starts with "### " (the
form the normalizer gives filename headings) appears unchanged in the
output, so a filename embedded in such a heading is never wrapped in a
highlight anchor — while the anchors emitted are exactly one per
case-insensitive literal match in the remaining lines, each carrying its
own counter number. -/
theorem C8_heading_skip_full_highlight (text searchTerm : JStr) (counter : Nat) :
    List.Forall₂ (fun lin lout => isHeadingLine lin = true → lout = lin)
      (splitNl text) (splitNl (highlightSearchTerm text searchTerm counter).1) ∧
    ((highlightSearchTerm text searchTerm counter).2.2).length =
      (((splitNl text).filter (fun l => !isHeadingLine l)).map
        (fun l => countMatches l searchTerm)).sum := by
  match hterm : searchTerm with
  | [] =>
    constructor
    · exact List.forall₂_same.mpr (fun x _ _ => rfl)
    · show (0 : Nat) = _
      rw [eq_comm]
      apply List.sum_eq_zero
      intro x hx
      rcases List.mem_map.mp hx with ⟨l, _, hl⟩
      rw [← hl]
      rfl
  | p :: ps =>
    by_cases htext : text = []
    · subst htext
      constructor
      · exact List.forall₂_same.mpr (fun x _ _ => rfl)
      · show (0 : Nat) = _
        simp [splitNl, isHeadingLine, jsTrim, sLit, countMatches, countScan]
    · have hout : (highlightSearchTerm text (p :: ps) counter).1 =
          joinNl (processLines p ps counter (splitNl text)).1 := by
        rw [highlightSearchTerm.eq_def]
        simp only [htext, if_false]
      have hids := (highlightSearchTerm_spec text (p :: ps) counter).2
      have hnn : (processLines p ps counter (splitNl text)).1 ≠ [] := by
        intro h0
        have hlen := processLines_length p ps (splitNl text) counter
        rw [h0] at hlen
        exact splitNl_ne_nil text (List.length_eq_zero.mp hlen.symm)
      have hnonl : ∀ out ∈ (processLines p ps counter (splitNl text)).1,
          '\n' ∉ out :=
        processLines_no_nl p ps (splitNl text) counter (splitNl_no_nl text)
      have hround : splitNl (highlightSearchTerm text (p :: ps) counter).1 =
          (processLines p ps counter (splitNl text)).1 := by
        rw [hout]
        exact splitNl_joinNl _ hnn hnonl
      constructor
      · rw [hround]
        exact processLines_forall₂ p ps (splitNl text) counter
      · rw [hids, List.length_range']
        rfl

/-! ### Live find ranking (public/js find script, `performFind` /
`sortByMatches`)

`performFind` walks the chat cards in DOM (encounter) order, skips cards
at or below the minimum-message filter, counts matches in each card's
lower-cased searchable text, collects cards with at least one match into
`results`, then sorts by `(a, b) => b.matches - a.matches` — a stable
sort descending by match count.  The per-card count is taken here under
the intended literal semantics of `countMatches`; the deployed script's
count is a raw-regex count because of the `escapeRegex` slip modelled
and recorded at C6 below. -/

/-- One chat card as the find script sees it: its `data-searchable`
text and its `data-message-count`. -/
structure Card where
  searchable : JStr
  messageCount : Nat

/-- The `results` array collected by `performFind`, in encounter order,
with the match count under the intended literal semantics (the deployed
`escapeRegex` slip is the C6 record). -/
def findResults (cards : List Card) (minMessages : Nat) (searchTerm : JStr) :
    List (Card × Nat) :=
  cards.filterMap fun card =>
    if card.messageCount ≤ minMessages then none
    else if 0 < countMatches (toLowerJ card.searchable) (toLowerJ searchTerm) then
      some (card, countMatches (toLowerJ card.searchable) (toLowerJ searchTerm))
    else none

/-- Models `results.sort((a, b) => b.matches - a.matches)`. -/
def sortByMatches (results : List (Card × Nat)) : List (Card × Nat) :=
  sortJS (fun a b => b.2 ≤ a.2) results

/-- The ranked result list the find script re-appends to the DOM. -/
def rankedResults (cards : List Card) (minMessages : Nat) (searchTerm : JStr) :
    List (Card × Nat) :=
  sortByMatches (findResults cards minMessages searchTerm)

theorem findResults_counts (cards : List Card) (minMessages : Nat)
    (searchTerm : JStr) :
    ∀ r ∈ findResults cards minMessages searchTerm,
      r.2 = countMatches (toLowerJ r.1.searchable) (toLowerJ searchTerm) := by
  intro r hr
  rcases List.mem_filterMap.mp hr with ⟨card, _, heq⟩
  by_cases h1 : card.messageCount ≤ minMessages
  · rw [if_pos h1] at heq
    exact absurd heq (by simp)
  · rw [if_neg h1] at heq
    by_cases h2 : 0 < countMatches (toLowerJ card.searchable) (toLowerJ searchTerm)
    · rw [if_pos h2] at heq
      rcases Option.some.inj heq with rfl
      rfl
    · rw [if_neg h2] at heq
      exact absurd heq (by simp)

/-- Ranking and stability of the find pipeline, under the intended
literal count: the ranked results are pairwise descending in match
count, each per-count sublist keeps encounter order (the sort is
stable), and every result's count is `countMatches` of its lower-cased
searchable text.  The quantity the deployed code ranks by is the
raw-regex match count, because of the `escapeRegex` slip recorded at
C6. -/
theorem rankedResults_sorted_stable (cards : List Card) (minMessages : Nat)
    (searchTerm : JStr) :
    ((rankedResults cards minMessages searchTerm).Pairwise
      (fun a b => b.2 ≤ a.2)) ∧
    (∀ n : Nat,
      (rankedResults cards minMessages searchTerm).filter (fun r => r.2 == n) =
      (findResults cards minMessages searchTerm).filter (fun r => r.2 == n)) ∧
    (∀ r ∈ rankedResults cards minMessages searchTerm,
      r.2 = countMatches (toLowerJ r.1.searchable) (toLowerJ searchTerm)) := by
  refine ⟨?_, ?_, ?_⟩
  · have h := sortJS_pairwise (fun a b : Card × Nat => decide (b.2 ≤ a.2))
      (fun a b => by
        rcases Nat.le_total b.2 a.2 with h | h
        · exact Or.inl (by simpa using h)
        · exact Or.inr (by simpa using h))
      (fun a b c hab hbc => by
        simp only [decide_eq_true_eq] at *
        omega)
      (findResults cards minMessages searchTerm)
    refine h.imp ?_
    intro a b hab
    simpa using hab
  · intro n
    exact sortJS_filter_of_class (fun a b => decide (b.2 ≤ a.2))
      (fun r => r.2 == n)
      (fun x y hx hy => by
        have hx' : x.2 = n := by simpa using hx
        have hy' : y.2 = n := by simpa using hy
        simp [hx', hy'])
      (findResults cards minMessages searchTerm)
  · intro r hr
    have hmem : r ∈ findResults cards minMessages searchTerm :=
      (sortJS_perm _ _).mem_iff.mp hr
    exact findResults_counts cards minMessages searchTerm r hmem

/-! ### The find script's broken `escapeRegex` (the C6 code bug)

src/unnamed/part_000 (both copies) defines
`escapeRegex = string.replace(/[.*+?^${}()|[\\]\\]/g, '\\\\$&')`.
Parsed as JavaScript, that character class ends at the FIRST unescaped
`]`, so the pattern matches a metacharacter followed by a literal
backslash followed by `]` — a three-character triple — and the
replacement prefixes the matched triple with two backslashes.  On any
ordinary search term the function is the identity, so the term reaches
`new RegExp(term, 'gi')` unescaped: metacharacters stay live and an
invalid pattern throws.  server.js (lines 670 and 728) has the correct
sibling `searchTerm.replace(/[.*+?^${}()|[\]\\]/g, '\\$&')`, whose
class includes `]` via `\]` and which prefixes each metacharacter with
one backslash. -/

/-- The characters of the find script's class `[.*+?^${}()|[\\]` (the
class closes at the first unescaped `]`, so `]` itself is not in it). -/
def isFindMeta (c : Char) : Bool :=
  c = '.' ∨ c = '*' ∨ c = '+' ∨ c = '?' ∨ c = '^' ∨ c = '$' ∨
  c = '\x7b' ∨ c = '\x7d' ∨ c = '(' ∨ c = ')' ∨ c = '|' ∨ c = '[' ∨
  c = '\\'

/-- The find script's `escapeRegex` exactly as written: replace each
leftmost non-overlapping metacharacter+backslash+`]` triple by two
backslashes followed by the triple; everything else passes through. -/
def escapeRegexFind : JStr → JStr
  | [] => []
  | [c1] => [c1]
  | [c1, c2] => [c1, c2]
  | c1 :: c2 :: c3 :: rest =>
    if isFindMeta c1 = true ∧ c2 = '\\' ∧ c3 = ']' then
      '\\' :: '\\' :: c1 :: c2 :: c3 :: escapeRegexFind rest
    else c1 :: escapeRegexFind (c2 :: c3 :: rest)

/-- The characters of the correct server.js class
`[.*+?^${}()|[\]\\]`: the find set plus `]`. -/
def isServerMeta (c : Char) : Bool := isFindMeta c ∨ c = ']'

/-- The server-side escape
`searchTerm.replace(/[.*+?^${}()|[\]\\]/g, '\\$&')` used by
`highlightSearchTerm`: each metacharacter is prefixed with one
backslash, making the term a regex literal — the behaviour the find
script's `escapeRegex` was evidently meant to have. -/
def escapeRegexServer : JStr → JStr
  | [] => []
  | c :: rest =>
    if isServerMeta c = true then '\\' :: c :: escapeRegexServer rest
    else c :: escapeRegexServer rest

/-- ECMAScript `RegExp` matching for the fragment the C6 failing input
needs: in a pattern whose only metacharacter is `.`, the dot matches any
single character except a line terminator and every other character
matches itself (case-insensitively, for the `i` flag). -/
def dotPrefixMatch : JStr → JStr → Bool
  | [], _ => true
  | _ :: _, [] => false
  | p :: ps, c :: cs =>
    (if p = '.' then !(c = '\n' ∨ c = '\r')
     else p.toLower = c.toLower) && dotPrefixMatch ps cs

/-- Leftmost non-overlapping match count of a dot-wildcard pattern, as
`text.match(new RegExp(pat, 'gi'))` counts for such patterns. -/
def countDotScan (p : Char) (ps : JStr) : JStr → Nat
  | [] => 0
  | c :: rest =>
    if dotPrefixMatch (p :: ps) (c :: rest) then
      1 + countDotScan p ps (rest.drop ps.length)
    else
      countDotScan p ps rest
termination_by l => l.length
decreasing_by
  · simp only [List.length_drop, List.length_cons]
    omega
  · simp only [List.length_cons]
    omega

/-- What the deployed find script counts at the C6 failing input: the
unescaped term is handed to `new RegExp`, so `.` is a live wildcard. -/
def countRegexDot (text pat : JStr) : Nat :=
  match pat with
  | [] => 0
  | p :: ps => countDotScan p ps text

/-- C6: the find script's `escapeRegex` is a slip, so the code does not
rank by literal-substring count.  At the failing input (search term
"a.c", searchable text "abc"): the deployed escape returns the term
unchanged — the dot stays a live regex wildcard — whereas the correct
sibling escape in server.js produces the literal `a\.c`; the count the
deployed code then computes is 1 (the raw regex `a.c` matches "abc"),
while the case-insensitive literal-substring count the claim and the
spec require is 0.  (A term like "(" even makes `new RegExp` throw.) -/
theorem C6_escape_bug :
    escapeRegexFind (sLit "a.c") = sLit "a.c" ∧
    escapeRegexServer (sLit "a.c") = sLit "a\\.c" ∧
    countRegexDot (toLowerJ (sLit "abc")) (toLowerJ (sLit "a.c")) = 1 ∧
    countMatches (toLowerJ (sLit "abc")) (toLowerJ (sLit "a.c")) = 0 := by
  refine ⟨by decide, by decide, ?_, ?_⟩
  · simp [countRegexDot, countDotScan, dotPrefixMatch, toLowerJ, sLit]
  · simp [countMatches, countScan, ciPrefix, toLowerJ, sLit,
      List.isPrefixOf]

/-! ### The log-record data model

One line of a `.jsonl` log either fails `JSON.parse` (`RawLine.malformed`)
or yields a record (`RawLine.parsed`).  Records are modelled with exactly
the fields the code reads; an absent JSON field is `none`.  The results
of the external `JSON.stringify` library calls on opaque embedded JSON
values are carried as data (`serializedCompact` for `JSON.stringify(v)`,
`serializedPretty` for `JSON.stringify(v, null, 2)`), since the code only
concatenates those strings into text. -/

/-- `item.input` of a tool_use block: the two fields the code inspects
plus its two serialized forms. -/
structure ToolInput where
  file_path : Option JStr
  content : Option JStr
  serializedCompact : JStr
  serializedPretty : JStr
deriving DecidableEq

/-- One element of an assistant message's content array.  For a
`tool_result` block, `contentSerialized` is `some` of the stringified
`item.content` when that value is truthy, else `none`; for an
unrecognized block, `serialized` is `JSON.stringify(item)`. -/
inductive Block where
  | text (t : JStr)
  | tool_use (name : JStr) (input : Option ToolInput)
  | tool_result (contentSerialized : Option JStr)
  | other (serialized : JStr)
deriving DecidableEq

/-- `message.content` (or a top-level `content`): a string or an array
of typed blocks.  An array carries `JSON.stringify` of the whole value
for the code paths that stringify non-string content. -/
inductive MsgContent where
  | str (s : JStr)
  | arr (items : List Block) (serialized : JStr)
deriving DecidableEq

/-- An embedded `entry.message`. -/
structure EmbMsg where
  role : JStr
  content : Option MsgContent
  model : Option JStr
deriving DecidableEq

/-- One parsed log record. -/
structure LogEntry where
  type : JStr
  message : Option EmbMsg
  content : Option MsgContent
  timestamp : Option JStr
deriving DecidableEq

/-- One raw line of a log file. -/
inductive RawLine where
  | malformed
  | parsed (e : LogEntry)
deriving DecidableEq

/-- JavaScript truthiness of an optional string (absent and the empty
string are falsy). -/
def truthyS : Option JStr → Bool
  | none => false
  | some s => !s.isEmpty

/-- JavaScript truthiness of an optional content value (absent and the
empty string are falsy; any array is truthy, even an empty one). -/
def truthyC : Option MsgContent → Bool
  | none => false
  | some (.str s) => !s.isEmpty
  | some (.arr _ _) => true

/-- `typeof content === 'string' ? content : JSON.stringify(content)`. -/
def stringOrStringify : MsgContent → JStr
  | .str s => s
  | .arr _ serialized => serialized

/-! ### The Entry Normalizer of the chat route
(src/server.js, `app.get('/chat/:project/:id')`) -/

/-- A normalized message of the chat view.  (`htmlContent` is
`marked(content)`, an external rendering library applied to the same
content, so it is not modelled as separate data.) -/
structure NormMsg where
  role : JStr
  content : MsgContent
  timestamp : Option JStr
  model : Option JStr
deriving DecidableEq

/-- Split on a separator character, JavaScript `String.prototype.split`
semantics (empty pieces kept, empty string gives one empty piece). -/
def splitOnChar (sep : Char) : JStr → List JStr
  | [] => [[]]
  | c :: rest =>
    if c = sep then [] :: splitOnChar sep rest
    else
      match splitOnChar sep rest with
      | [] => [[c]]
      | piece :: pieces => (c :: piece) :: pieces

/-- The language hint chosen from a file extension (the `switch` in the
chat route; `md`/`markdown` are handled before this is consulted). -/
def extLanguage (ext : JStr) : JStr :=
  if ext = sLit "js" ∨ ext = sLit "jsx" then sLit "javascript"
  else if ext = sLit "ts" ∨ ext = sLit "tsx" then sLit "typescript"
  else if ext = sLit "py" then sLit "python"
  else if ext = sLit "html" then sLit "html"
  else if ext = sLit "css" then sLit "css"
  else if ext = sLit "json" then sLit "json"
  else if ext = sLit "yml" ∨ ext = sLit "yaml" then sLit "yaml"
  else if ext = sLit "xml" then sLit "xml"
  else if ext = sLit "sql" then sLit "sql"
  else if ext = sLit "sh" ∨ ext = sLit "bash" then sLit "bash"
  else sLit "text"

/-- JavaScript coercion of a possibly-undefined value interpolated into
a template literal (`undefined` renders as the text "undefined"). -/
def jsShow (c : Option JStr) : JStr :=
  match c with
  | some s => s
  | none => sLit "undefined"

/-- The file-content section rendered for a Write/Read tool call:
`### basename` heading, then a `---`-delimited block for markdown or a
fenced block tagged with the extension's language hint. -/
def fileSection (input : ToolInput) : JStr :=
  let filePath := input.file_path.getD []
  let fileExt := toLowerJ ((splitOnChar '.' filePath).getLast?.getD [])
  let fileName := (splitOnChar '/' filePath).getLast?.getD []
  let heading := sLit "\n### " ++ fileName ++ sLit "\n\n"
  if fileExt = sLit "md" ∨ fileExt = sLit "markdown" then
    heading ++ sLit "---\n\n" ++ jsShow input.content ++ sLit "\n\n" ++
      sLit "---\n\n"
  else
    heading ++ sLit "```" ++ extLanguage fileExt ++ sLit "\n" ++
      jsShow input.content ++ sLit "\n```\n"

/-- Rendering of one assistant content block in the chat route (only
`text` and `tool_use` blocks have a branch there; all other kinds are
skipped). -/
def renderBlockChat (b : Block) : JStr :=
  match b with
  | .text t => t ++ sLit "\n"
  | .tool_use name input =>
    sLit "\n**Tool Call: " ++ name ++ sLit "**\n" ++
    (match input with
     | none => []
     | some i =>
       if (name = sLit "Write" ∧ truthyS i.file_path = true ∧
             truthyS i.content = true) ∨
          (name = sLit "Read" ∧ truthyS i.file_path = true) then
         fileSection i
       else
         sLit "```json\n" ++ i.serializedPretty ++ sLit "\n```\n")
  | .tool_result _ => []
  | .other _ => []

/-- The assistant `textContent` accumulator of the chat route: a content
array is folded block by block, plain string content is taken as-is,
anything else leaves it empty. -/
def assistantTextChat (c : Option MsgContent) : JStr :=
  match c with
  | some (.arr items _) => (items.map renderBlockChat).flatten
  | some (.str s) => s
  | none => []

/-- The shapes checked after the user/assistant branches: a top-level
`tool_result` record with truthy `content`. -/
def normalizeTail (e : LogEntry) : Option NormMsg :=
  if e.type = sLit "tool_result" ∧ truthyC e.content = true then
    some { role := sLit "tool_result"
           content := .str (stringOrStringify (e.content.getD (.str [])))
           timestamp := e.timestamp
           model := none }
  else
    none

/-- Models the per-line parser of the chat route: one raw line yields at
most one normalized message; a line that fails `JSON.parse` (the catch
returns null) or matches no recognized shape (`return null`) is dropped. -/
def normalizeLine : RawLine → Option NormMsg
  | .malformed => none
  | .parsed e =>
    match e.message with
    | some m =>
      if e.type = sLit "user" ∧ m.role = sLit "user" then
        some { role := sLit "user"
               content :=
                 if truthyC m.content = true then m.content.getD (.str [])
                 else .str []
               timestamp := e.timestamp
               model := none }
      else if e.type = sLit "assistant" ∧ m.role = sLit "assistant" then
        some { role := sLit "assistant"
               content := .str (jsTrim (assistantTextChat m.content))
               timestamp := e.timestamp
               model := m.model }
      else normalizeTail e
    | none => normalizeTail e

/-- `lines.map(...).filter(msg => msg !== null)`: the messages of one
conversation, in file order. -/
def parseMessages (ls : List RawLine) : List NormMsg :=
  ls.filterMap normalizeLine

/-- C3: parsing is total: every line yields either exactly one normalized
message or is dropped — a line that fails to parse as JSON (malformed) or
matches no known record shape normalizes to `none`, and dropping it
leaves the rest of the conversation's parse unchanged (processing
continues with the next line); no parse error propagates past the
normalizer. -/
theorem C3_parsing_total (l1 l2 : List RawLine) (l : RawLine)
    (h : normalizeLine l = none) :
    parseMessages (l1 ++ l :: l2) = parseMessages (l1 ++ l2) ∧
    normalizeLine RawLine.malformed = none ∧
    ∀ ls : List RawLine, (parseMessages ls).length ≤ ls.length := by
  refine ⟨?_, rfl, ?_⟩
  · unfold parseMessages
    rw [List.filterMap_append, List.filterMap_append, List.filterMap_cons, h]
  · intro ls
    exact List.length_filterMap_le normalizeLine ls

/-- C3 witness: the theorem applied to a concrete malformed line. -/
theorem C3_parsing_total_witness :
    parseMessages ([] ++ RawLine.malformed :: []) = parseMessages ([] ++ []) ∧
    normalizeLine RawLine.malformed = none ∧
    ∀ ls : List RawLine, (parseMessages ls).length ≤ ls.length :=
  C3_parsing_total [] [] RawLine.malformed rfl

/-! ### The homepage extractor and the Tier-1 sequence indices
(src/server.js, `app.get('/')` and `generateChatSummary`) -/

/-- Rendering of one assistant content block in the homepage extractor
(every block kind contributes text there). -/
def renderBlockHome (b : Block) : JStr :=
  match b with
  | .text t => t ++ sLit " "
  | .tool_use name input =>
    sLit "Tool: " ++ name ++ sLit " " ++
    (match input with
     | none => []
     | some i => i.serializedCompact ++ sLit " ")
  | .tool_result contentSerialized =>
    (match contentSerialized with
     | none => []
     | some s => s ++ sLit " ")
  | .other serialized => serialized ++ sLit " "

/-- The homepage assistant `textContent` accumulator. -/
def assistantTextHome (c : Option MsgContent) : JStr :=
  match c with
  | some (.arr items _) => (items.map renderBlockHome).flatten
  | some (.str s) => s
  | none => []

/-- The homepage content for a top-level `tool_result`/`system` record:
`entry.content` when truthy, else `entry.message.content` when present
and truthy, stringified if not a string. -/
def sysContentHome (e : LogEntry) : JStr :=
  if truthyC e.content = true then stringOrStringify (e.content.getD (.str []))
  else
    match e.message with
    | some m =>
      if truthyC m.content = true then stringOrStringify (m.content.getD (.str []))
      else []
    | none => []

/-- What one homepage loop iteration pushes: a user message content, an
assistant-side text, or nothing. -/
inductive Pushed where
  | user (c : MsgContent)
  | asst (t : JStr)
  | nothing
deriving DecidableEq

/-- The branch logic of one homepage loop iteration (src/server.js lines
343-396): user records push `message.content || ''` onto `userMessages`;
assistant records push their non-empty trimmed text onto
`assistantMessages`; `tool_result`/`system` records push their non-empty
trimmed content onto `assistantMessages`; anything else (or a JSON parse
failure, absorbed by the catch) pushes nothing. -/
def classifyLine : RawLine → Pushed
  | .malformed => .nothing
  | .parsed e =>
    match e.message with
    | some m =>
      if e.type = sLit "user" ∧ m.role = sLit "user" then
        .user (if truthyC m.content = true then m.content.getD (.str [])
               else .str [])
      else if e.type = sLit "assistant" ∧ m.role = sLit "assistant" then
        (let t := jsTrim (assistantTextHome m.content)
         if t.isEmpty then .nothing else .asst t)
      else if e.type = sLit "tool_result" ∨ e.type = sLit "system" then
        (let t := jsTrim (sysContentHome e)
         if t.isEmpty then .nothing else .asst t)
      else .nothing
    | none =>
      if e.type = sLit "tool_result" ∨ e.type = sLit "system" then
        (let t := jsTrim (sysContentHome e)
         if t.isEmpty then .nothing else .asst t)
      else .nothing

/-- The `userMessages` array the homepage builds, in file order. -/
def userMessagesOf (ls : List RawLine) : List MsgContent :=
  ls.filterMap fun line =>
    match classifyLine line with
    | .user c => some c
    | _ => none

/-- The `assistantMessages` array the homepage builds, in file order. -/
def assistantMessagesOf (ls : List RawLine) : List JStr :=
  ls.filterMap fun line =>
    match classifyLine line with
    | .asst t => some t
    | _ => none

/-- Modelled from the claim, not from the source: the pushed message
contents in original log-line order, the order against which the claim
says the sequence indices line up. -/
def specFileOrderContents (ls : List RawLine) : List MsgContent :=
  ls.filterMap fun line =>
    match classifyLine line with
    | .user c => some c
    | .asst t => some (.str t)
    | .nothing => none

/-- One entry of `allMessages` in `generateChatSummary`. -/
structure SeqMsg where
  content : MsgContent
  index : Nat
  type : JStr
deriving DecidableEq

/-- Lines 21-23 of generateChatSummary: user message number `idx` gets
index `idx * 2`, assistant message number `idx` gets `idx * 2 + 1`. -/
def allMessagesOf (userMessages : List MsgContent)
    (assistantMessages : List JStr) : List SeqMsg :=
  (userMessages.enum.map fun ic =>
    { content := ic.2, index := ic.1 * 2, type := sLit "user" }) ++
  (assistantMessages.enum.map fun ic =>
    { content := .str ic.2, index := ic.1 * 2 + 1, type := sLit "assistant" })

/-- Line 24: `allMessages.sort((a, b) => a.index - b.index)`. -/
def allMessagesSorted (u : List MsgContent) (a : List JStr) : List SeqMsg :=
  sortJS (fun x y => x.index ≤ y.index) (allMessagesOf u a)

theorem allMessagesOf_index_nodup (u : List MsgContent) (a : List JStr) :
    ((allMessagesOf u a).map SeqMsg.index).Nodup := by
  unfold allMessagesOf
  rw [List.map_append, List.map_map, List.map_map]
  have hu : (u.enum.map (SeqMsg.index ∘ fun ic =>
      ({ content := ic.2, index := ic.1 * 2, type := sLit "user" } : SeqMsg))) =
      u.enum.map (fun ic => ic.1 * 2) := rfl
  have ha : (a.enum.map (SeqMsg.index ∘ fun ic =>
      ({ content := .str ic.2, index := ic.1 * 2 + 1,
         type := sLit "assistant" } : SeqMsg))) =
      a.enum.map (fun ic => ic.1 * 2 + 1) := rfl
  rw [hu, ha]
  have hfst : ∀ (l : List MsgContent),
      l.enum.map (fun ic => ic.1 * 2) = (List.range l.length).map (· * 2) := by
    intro l
    rw [← List.enum_map_fst l, List.map_map]
    rfl
  have hfst' : ∀ (l : List JStr),
      l.enum.map (fun ic => ic.1 * 2 + 1) =
        (List.range l.length).map (· * 2 + 1) := by
    intro l
    rw [← List.enum_map_fst l, List.map_map]
    rfl
  rw [hfst, hfst']
  refine List.Nodup.append ?_ ?_ ?_
  · exact (List.nodup_range u.length).map (fun a b h => by omega)
  · exact (List.nodup_range a.length).map (fun a b h => by omega)
  · intro x hx hy
    rcases List.mem_map.mp hx with ⟨i, _, hi⟩
    rcases List.mem_map.mp hy with ⟨j, _, hj⟩
    omega

/-- C2 amended: the sequence indices `generateChatSummary` attaches (and
uses as every accomplishment anchor's messageIndex / `msg-{i}` anchor id)
are strictly increasing along the sorted `allMessages` and hence unique
within the conversation; they are built from the user/assistant positions
(`idx*2` / `idx*2+1`), not from log-file line numbers. -/
theorem C2_sequence_indices_strict_mono (u : List MsgContent) (a : List JStr) :
    (allMessagesSorted u a).Pairwise (fun x y => x.index < y.index) := by
  have hle := sortJS_pairwise (fun x y : SeqMsg => decide (x.index ≤ y.index))
    (fun x y => by
      rcases Nat.le_total x.index y.index with h | h
      · exact Or.inl (by simpa using h)
      · exact Or.inr (by simpa using h))
    (fun x y z hxy hyz => by
      simp only [decide_eq_true_eq] at *
      omega)
    (allMessagesOf u a)
  have hperm : (allMessagesSorted u a).Perm (allMessagesOf u a) :=
    sortJS_perm _ _
  have hnodup : ((allMessagesSorted u a).map SeqMsg.index).Nodup :=
    (hperm.map SeqMsg.index).nodup_iff.mpr (allMessagesOf_index_nodup u a)
  have hne : (allMessagesSorted u a).Pairwise
      (fun x y => x.index ≠ y.index) :=
    (List.pairwise_map.mp hnodup)
  have hcomb := List.Pairwise.and hle hne
  refine hcomb.imp ?_
  intro x y hxy
  rcases hxy with ⟨h1, h2⟩
  have h1' : x.index ≤ y.index := by simpa using h1
  omega

/-- A user log line with the given text (concrete test data). -/
def mkUserLine (s : String) : RawLine :=
  .parsed { type := sLit "user"
            message := some { role := sLit "user"
                              content := some (.str (sLit s))
                              model := none }
            content := none
            timestamp := none }

/-- An assistant log line with the given text (concrete test data). -/
def mkAssistantLine (s : String) : RawLine :=
  .parsed { type := sLit "assistant"
            message := some { role := sLit "assistant"
                              content := some (.str (sLit s))
                              model := none }
            content := none
            timestamp := none }

/-- A log with two consecutive user lines, then one assistant line. -/
def exLinesC2 : List RawLine :=
  [mkUserLine "aaaa", mkUserLine "bbbb", mkAssistantLine "cccc"]

/-- C2 counterexample: for the log whose lines are user "aaaa", user
"bbbb", assistant "cccc" (in that order), reading the summarizer's
messages in sequence-index order gives aaaa, cccc, bbbb — the sequence
indices do not match the original line order of the log file. -/
theorem C2_counterexample :
    (allMessagesSorted (userMessagesOf exLinesC2)
        (assistantMessagesOf exLinesC2)).map SeqMsg.content ≠
      specFileOrderContents exLinesC2 := by decide

/-! ### Tier-1 phrase filtering (generateChatSummary, lines 58-74) -/

/-- Models `.replace(/\s+/g, ' ')`: collapse each whitespace run to one
space.  `prevWS` records whether the previous character was part of a
run already replaced. -/
def collapseWSAux (prevWS : Bool) : JStr → JStr
  | [] => []
  | c :: rest =>
    if isWS c then
      (if prevWS then collapseWSAux true rest
       else ' ' :: collapseWSAux true rest)
    else c :: collapseWSAux false rest

/-- `.replace(/\s+/g, ' ')`. -/
def collapseWS (s : JStr) : JStr := collapseWSAux false s

/-- Characters kept by `.replace(/[^a-z0-9\s]/gi, '')`. -/
def keepAlnumWS (c : Char) : Bool :=
  ('a' ≤ c ∧ c ≤ 'z') ∨ ('A' ≤ c ∧ c ≤ 'Z') ∨ ('0' ≤ c ∧ c ≤ '9') ∨
    isWS c = true

/-- The cleaning pipeline of lines 61-64: collapse whitespace, strip
non-alphanumerics, trim. -/
def cleanPhrase (s : JStr) : JStr :=
  jsTrim ((collapseWS s).filter keepAlnumWS)

/-- Models `String.prototype.includes`. -/
def jsIncludes (s sub : JStr) : Bool :=
  match s with
  | [] => sub.isEmpty
  | c :: rest => sub.isPrefixOf (c :: rest) || jsIncludes rest sub

/-- The keep decision of lines 60-72 for one extracted phrase (the
already-trimmed `match[1].trim()`), given the texts already kept: the
RAW length must be strictly between 10 and 100, the cleaned form truthy,
and no kept text may contain the cleaned form's first 20 characters. -/
def keepPhrase (kept : List JStr) (accomplishment : JStr) : Option JStr :=
  if 10 < accomplishment.length ∧ accomplishment.length < 100 then
    (let cleaned := cleanPhrase accomplishment
     if cleaned.isEmpty = false ∧
        (kept.any fun a => jsIncludes a (cleaned.take 20)) = false then
       some cleaned
     else none)
  else none

/-- C9 counterexample: the extracted phrase "a!!!!!!!!!!b" (raw length
12) is kept with cleaned form "ab" of length 2 — the strict 10..100
length bound is applied to the raw extracted text, not to the cleaned
form as the claim states. -/
theorem C9_counterexample :
    keepPhrase [] (sLit "a!!!!!!!!!!b") = some (sLit "ab") ∧
    ¬(10 < (cleanPhrase (sLit "a!!!!!!!!!!b")).length ∧
      (cleanPhrase (sLit "a!!!!!!!!!!b")).length < 100) := by decide

/-- C9 amended: a phrase is kept only if its raw extracted (trimmed)
length is strictly between 10 and 100, its cleaned form (non-alphanumeric
characters stripped, whitespace collapsed) is non-empty, and no
already-kept phrase contains the cleaned form's leading 20 characters as
a substring; what is kept is the cleaned form. -/
theorem C9_keep_rule (kept : List JStr) (accomplishment : JStr) (c : JStr)
    (h : keepPhrase kept accomplishment = some c) :
    c = cleanPhrase accomplishment ∧
    10 < accomplishment.length ∧ accomplishment.length < 100 ∧
    c ≠ [] ∧
    ∀ a ∈ kept, jsIncludes a (c.take 20) = false := by
  unfold keepPhrase at h
  by_cases h1 : 10 < accomplishment.length ∧ accomplishment.length < 100
  · rw [if_pos h1] at h
    simp only at h
    by_cases h2 : (cleanPhrase accomplishment).isEmpty = false ∧
        (kept.any fun a =>
          jsIncludes a ((cleanPhrase accomplishment).take 20)) = false
    · rw [if_pos h2] at h
      rcases Option.some.inj h with rfl
      refine ⟨rfl, h1.1, h1.2, ?_, ?_⟩
      · intro hnil
        rw [hnil] at h2
        simp at h2
      · intro a ha
        have := h2.2
        rw [List.any_eq_false] at this
        exact Bool.not_eq_true _ ▸ (this a ha)
    · rw [if_neg h2] at h
      exact absurd h (by simp)
  · rw [if_neg h1] at h
    exact absurd h (by simp)

/-- C9 witness: the amended rule applied to the concrete kept phrase
"hello world program". -/
theorem C9_keep_rule_witness :
    sLit "hello world program" = cleanPhrase (sLit "hello world program") ∧
    10 < (sLit "hello world program").length ∧
    (sLit "hello world program").length < 100 ∧
    sLit "hello world program" ≠ [] ∧
    ∀ a ∈ ([] : List JStr),
      jsIncludes a ((sLit "hello world program").take 20) = false :=
  C9_keep_rule [] (sLit "hello world program")
    (sLit "hello world program") (by decide)

/-! ### The Index Store (src/server.js, `updateHistoryIndex` /
`runAnalysis`)

The persisted document is a JSON array of thread entries.  Absent JSON
fields are `none`: `JSON.stringify` drops `undefined` object properties,
so structural equality of the model matches equality of the persisted
documents.  `date` is stored as `modifiedTime.toISOString()`; since that
rendering is injective in the timestamp, the model keeps the numeric
value, which is also what the sort comparator
`new Date(b.date) - new Date(a.date)` uses. -/

/-- One observed conversation as `updateHistoryIndex` consumes it. -/
structure Chat where
  id : JStr
  summary : JStr
  firstMessage : JStr
  modifiedTime : Int
  messageCount : Nat
  lastMessageTimestamp : Option JStr
deriving DecidableEq

/-- One persisted index entry.  `oneLine`, `enhancedBullets` and
`paragraph` are the legacy field names an older document may carry;
`lastAnalyzed` and `needsAnalysis` are written by the analysis pass. -/
structure Thread where
  id : JStr
  project : JStr
  date : Int
  firstSentence : JStr
  oneLineSummary : Option JStr
  bulletSummary : Option (List JStr)
  paragraphSummary : Option JStr
  messageCount : Nat
  lastMessageTimestamp : Option JStr
  needsAnalysis : Option Bool
  lastAnalyzed : Option JStr
  oneLine : Option JStr
  enhancedBullets : Option (List JStr)
  paragraph : Option JStr
deriving DecidableEq

/-- `a || b` on optional strings: the left value when truthy (present
and non-empty), else the right operand. -/
def jsOrS (a b : Option JStr) : Option JStr :=
  if truthyS a = true then a else b

/-- `a || b` where the left is an optional array: any array is truthy. -/
def jsOrA (a b : Option (List JStr)) : Option (List JStr) :=
  if a.isSome = true then a else b

/-- Strip HTML tag spans, `line.replace(/<[^>]*>/g, '')`: from `<` up to
the next `>` is dropped; a `<` with no later `>` never completes a match
and stays.  `pending` holds (reversed) the characters of a tag opened
but not yet closed. -/
def stripTagsAux (pending : Option JStr) : JStr → JStr
  | [] =>
    (match pending with
     | none => []
     | some p => p.reverse)
  | c :: rest =>
    match pending with
    | none =>
      if c = '<' then stripTagsAux (some ['<']) rest
      else c :: stripTagsAux none rest
    | some p =>
      if c = '>' then stripTagsAux none rest
      else stripTagsAux (some (c :: p)) rest

/-- `line.replace(/<[^>]*>/g, '')`. -/
def stripTags (s : JStr) : JStr := stripTagsAux none s

/-- Lines 158-162: the Tier-1 bullets persisted for a fresh entry — the
summary's lines that start (after trimming) with `•`, with HTML tags
stripped and trimmed. -/
def summaryBullets (summary : JStr) : List JStr :=
  ((splitNl summary).filter
    (fun line => (sLit "•").isPrefixOf (jsTrim line))).map
    (fun line => jsTrim (stripTags line))

/-- Sentence-ending punctuation of `/^[^.!?]*[.!?]/`. -/
def isTerminator (c : Char) : Bool := c = '.' ∨ c = '!' ∨ c = '?'

/-- Lines 164-171: take the first sentence (up to and including the
first terminator) of the first message, else its first line, trimmed. -/
def firstSentenceOf (firstMessage : JStr) : JStr :=
  match firstMessage.dropWhile (fun c => !isTerminator c) with
  | t :: _ =>
    jsTrim (firstMessage.takeWhile (fun c => !isTerminator c) ++ [t])
  | [] => jsTrim ((splitNl firstMessage).headD [])

/-- The `existingMap` lookup: `Map.set` keeps the last write per
`project:id` key, so the match closest to the end of the persisted array
wins. -/
def lookupThread (index : List Thread) (project id : JStr) : Option Thread :=
  index.reverse.find? (fun t => t.project = project ∧ t.id = id)

/-- Lines 186-190: the condition marking a conversation new or changed. -/
def entryChanged (existingIndex : List Thread) (projectName : JStr)
    (chat : Chat) : Bool :=
  match lookupThread existingIndex projectName chat.id with
  | none => true
  | some t =>
    t.messageCount ≠ chat.messageCount ∨
    t.lastMessageTimestamp ≠ chat.lastMessageTimestamp ∨
    truthyS t.oneLineSummary = false ∨
    truthyS t.paragraphSummary = false

/-- Lines 173-197: the rebuilt `threadInfo` for one observed
conversation.  Note which fields are (not) written: summaries are merged
forward with their legacy fallbacks; `needsAnalysis` is set (to true)
only when the entry is new or changed; `lastAnalyzed` and the legacy
fields are never written into a rebuilt entry. -/
def buildEntry (existingIndex : List Thread) (projectName : JStr)
    (chat : Chat) : Thread :=
  let existingThread := lookupThread existingIndex projectName chat.id
  { id := chat.id
    project := projectName
    date := chat.modifiedTime
    firstSentence := firstSentenceOf chat.firstMessage
    oneLineSummary := jsOrS (existingThread.bind Thread.oneLineSummary)
      (existingThread.bind Thread.oneLine)
    bulletSummary := jsOrA
      (jsOrA (existingThread.bind Thread.bulletSummary)
        (existingThread.bind Thread.enhancedBullets))
      (some (summaryBullets chat.summary))
    paragraphSummary := jsOrS (existingThread.bind Thread.paragraphSummary)
      (existingThread.bind Thread.paragraph)
    messageCount := chat.messageCount
    lastMessageTimestamp := chat.lastMessageTimestamp
    needsAnalysis :=
      if entryChanged existingIndex projectName chat then some true else none
    lastAnalyzed := none
    oneLine := none
    enhancedBullets := none
    paragraph := none }

/-- `updateHistoryIndex`: rebuild the document from the observed
conversations only, sort by date descending (`Array.prototype.sort` is
stable), and report `hasChanges`. -/
def mergeIndex (existingIndex : List Thread)
    (chatsByProject : List (JStr × List Chat)) : List Thread × Bool :=
  (sortJS (fun a b => b.date ≤ a.date)
    (chatsByProject.flatMap fun pc => pc.2.map (buildEntry existingIndex pc.1)),
   chatsByProject.any fun pc => pc.2.any (entryChanged existingIndex pc.1))

/-- Lines 205-208: the document is (re)written only when an entry was
marked changed or the entry count differs. -/
def mergeWritten (existingIndex : List Thread)
    (chats : List (JStr × List Chat)) : Bool :=
  (mergeIndex existingIndex chats).2 ||
    existingIndex.length ≠ (mergeIndex existingIndex chats).1.length

/-- The persisted document after one run of `updateHistoryIndex`. -/
def persistedAfter (existingIndex : List Thread)
    (chats : List (JStr × List Chat)) : List Thread :=
  if mergeWritten existingIndex chats then (mergeIndex existingIndex chats).1
  else existingIndex

/-- Lines 269-276 of `runAnalysis`: the in-place update of an analyzed
entry — the spread keeps all other fields and the analysis fields
overwrite, setting `lastAnalyzed` and `needsAnalysis: false`. -/
def analysisUpdate (t : Thread) (oneLineS paragraphS : JStr)
    (bulletS : List JStr) (now : JStr) : Thread :=
  { t with oneLineSummary := some oneLineS
           paragraphSummary := some paragraphS
           bulletSummary := some bulletS
           lastAnalyzed := some now
           needsAnalysis := some false }

/-- The `project:id` key of an entry. -/
def keyOf (t : Thread) : JStr × JStr := (t.project, t.id)

/-- The keys of the observed conversations, in observation order. -/
def chatKeys (chats : List (JStr × List Chat)) : List (JStr × JStr) :=
  chats.flatMap fun pc => pc.2.map fun c => (pc.1, c.id)

/-- The number of observed conversations. -/
def totalChats (chats : List (JStr × List Chat)) : Nat :=
  (chats.map fun pc => pc.2.length).sum

theorem mergeIndex_length (ex : List Thread) (chats : List (JStr × List Chat)) :
    (mergeIndex ex chats).1.length = totalChats chats := by
  show (sortJS _ _).length = _
  rw [(sortJS_perm _ _).length_eq]
  unfold totalChats
  induction chats with
  | nil => rfl
  | cons pc rest ih =>
    simp only [List.flatMap_cons, List.length_append, List.map_cons,
      List.sum_cons, List.length_map]
    rw [ih]

theorem newIndex_keys (ex : List Thread) :
    ∀ chats : List (JStr × List Chat),
      ((chats.flatMap fun pc => pc.2.map (buildEntry ex pc.1)).map keyOf) =
        chatKeys chats := by
  intro chats
  induction chats with
  | nil => rfl
  | cons pc rest ih =>
    simp only [List.flatMap_cons, List.map_append, List.map_map, chatKeys] at *
    rw [ih]
    rfl

theorem mergeIndex_keys (ex : List Thread) (chats : List (JStr × List Chat)) :
    (((mergeIndex ex chats).1).map keyOf).Perm (chatKeys chats) := by
  show ((sortJS _ _).map keyOf).Perm _
  refine ((sortJS_perm _ _).map keyOf).trans ?_
  rw [newIndex_keys]

theorem buildEntry_mem (ex : List Thread) (chats : List (JStr × List Chat))
    (pc : JStr × List Chat) (c : Chat) (hpc : pc ∈ chats) (hc : c ∈ pc.2) :
    buildEntry ex pc.1 c ∈ (mergeIndex ex chats).1 := by
  show _ ∈ sortJS _ _
  rw [(sortJS_perm _ _).mem_iff]
  exact List.mem_flatMap.mpr ⟨pc, hpc, List.mem_map_of_mem _ hc⟩

/-- C10: every merge rebuilds the index document solely from the
conversations observed in the current scan: each merged entry's
(project, id) key is an observed conversation's key — so a persisted
entry whose source conversation is no longer observed (say, a deleted
log) is absent from the merged document — the merged document has
exactly one entry per observed conversation, and whenever the entry
count differs from the persisted document the rewrite happens. -/
theorem C10_rebuilt_from_observed (existingIndex : List Thread)
    (chats : List (JStr × List Chat)) :
    (∀ t ∈ (mergeIndex existingIndex chats).1, keyOf t ∈ chatKeys chats) ∧
    (mergeIndex existingIndex chats).1.length = totalChats chats ∧
    (existingIndex.length ≠ totalChats chats →
      mergeWritten existingIndex chats = true) := by
  refine ⟨?_, mergeIndex_length existingIndex chats, ?_⟩
  · intro t ht
    have hm : keyOf t ∈ ((mergeIndex existingIndex chats).1).map keyOf :=
      List.mem_map_of_mem keyOf ht
    exact (mergeIndex_keys existingIndex chats).mem_iff.mp hm
  · intro hne
    unfold mergeWritten
    rw [mergeIndex_length]
    simp [hne]

/-- C5 amended: an entry is left unmarked (`needsAnalysis` absent, which
every reader treats as false) after a merge when it already existed with
truthy `oneLineSummary` AND truthy `paragraphSummary` and unchanged
`messageCount` AND unchanged `lastMessageTimestamp` — the full §3
invariant; an unchanged `messageCount` with `oneLineSummary` present is
not by itself sufficient. -/
theorem C5_needs_analysis_unset (existingIndex : List Thread)
    (projectName : JStr) (chat : Chat) (t : Thread)
    (hfound : lookupThread existingIndex projectName chat.id = some t)
    (hmc : t.messageCount = chat.messageCount)
    (hts : t.lastMessageTimestamp = chat.lastMessageTimestamp)
    (hols : truthyS t.oneLineSummary = true)
    (hps : truthyS t.paragraphSummary = true) :
    (buildEntry existingIndex projectName chat).needsAnalysis = none := by
  have hch : entryChanged existingIndex projectName chat = false := by
    unfold entryChanged
    rw [hfound]
    simp [hmc, hts, hols, hps]
  have hna : (buildEntry existingIndex projectName chat).needsAnalysis =
      if entryChanged existingIndex projectName chat then some true
      else none := rfl
  rw [hna, hch]
  rfl

/-- A persisted, fully analyzed entry for conversation c1 (test data). -/
def exThreadAnalyzed : Thread :=
  { id := sLit "c1"
    project := sLit "p"
    date := 5
    firstSentence := []
    oneLineSummary := some (sLit "one line")
    bulletSummary := some []
    paragraphSummary := some (sLit "a paragraph")
    messageCount := 3
    lastMessageTimestamp := some (sLit "T1")
    needsAnalysis := some false
    lastAnalyzed := some (sLit "A2024")
    oneLine := none
    enhancedBullets := none
    paragraph := none }

/-- The unchanged observation of conversation c1 (test data). -/
def exChatC1v : Chat :=
  { id := sLit "c1"
    summary := []
    firstMessage := []
    modifiedTime := 5
    messageCount := 3
    lastMessageTimestamp := some (sLit "T1") }

/-- C5 witness: the amended invariant applied to the concrete analyzed
entry and its unchanged observation. -/
theorem C5_needs_analysis_unset_witness :
    (buildEntry [exThreadAnalyzed] (sLit "p") exChatC1v).needsAnalysis =
      none :=
  C5_needs_analysis_unset [exThreadAnalyzed] (sLit "p") exChatC1v
    exThreadAnalyzed (by decide) (by decide) (by decide) (by decide)
    (by decide)

/-- Like `exThreadAnalyzed`, but with `paragraphSummary` still absent
(only the one-line summary is present). -/
def exThreadNoPara : Thread :=
  { id := sLit "c1"
    project := sLit "p"
    date := 5
    firstSentence := []
    oneLineSummary := some (sLit "one line")
    bulletSummary := some []
    paragraphSummary := none
    messageCount := 3
    lastMessageTimestamp := some (sLit "T1")
    needsAnalysis := none
    lastAnalyzed := none
    oneLine := none
    enhancedBullets := none
    paragraph := none }

/-- C5 counterexample: an index entry whose `messageCount` (and even
`lastMessageTimestamp`) is unchanged between two scans and whose
`oneLineSummary` is present is nevertheless marked `needsAnalysis = true`
by the merge, because its `paragraphSummary` is still absent — the claim
as stated is false. -/
theorem C5_counterexample :
    (lookupThread
        (mergeIndex [exThreadNoPara] [(sLit "p", [exChatC1v])]).1
        (sLit "p") (sLit "c1")).bind Thread.needsAnalysis = some true := by
  decide

/-- C4 amended: summary fields are merged forward — a persisted entry
found under the conversation's key keeps its truthy (non-empty)
`paragraphSummary` through a merge with no tier-2 re-run — but the
rebuilt entry does NOT carry `lastAnalyzed` (nor an explicit
`needsAnalysis: false`): those analysis-written fields are dropped when
the document is rewritten, and downstream code merely treats the absent
`needsAnalysis` as false. -/
theorem C4_forward_merge (existingIndex : List Thread) (projectName : JStr)
    (chat : Chat) (t : Thread)
    (hfound : lookupThread existingIndex projectName chat.id = some t)
    (hps : truthyS t.paragraphSummary = true) :
    (buildEntry existingIndex projectName chat).paragraphSummary =
      t.paragraphSummary ∧
    (buildEntry existingIndex projectName chat).lastAnalyzed = none := by
  constructor
  · have hdef : (buildEntry existingIndex projectName chat).paragraphSummary =
        jsOrS ((lookupThread existingIndex projectName chat.id).bind
            Thread.paragraphSummary)
          ((lookupThread existingIndex projectName chat.id).bind
            Thread.paragraph) := rfl
    rw [hdef, hfound]
    show jsOrS t.paragraphSummary t.paragraph = t.paragraphSummary
    unfold jsOrS
    rw [if_pos hps]
  · rfl

/-- C4 witness: the forward merge applied to the concrete analyzed
entry. -/
theorem C4_forward_merge_witness :
    (buildEntry [exThreadAnalyzed] (sLit "p") exChatC1v).paragraphSummary =
      exThreadAnalyzed.paragraphSummary ∧
    (buildEntry [exThreadAnalyzed] (sLit "p") exChatC1v).lastAnalyzed =
      none :=
  C4_forward_merge [exThreadAnalyzed] (sLit "p") exChatC1v exThreadAnalyzed
    (by decide) (by decide)

/-- A newly appearing conversation c2 (test data): it makes the merge
rewrite the whole document. -/
def exChatNew : Chat :=
  { id := sLit "c2"
    summary := []
    firstMessage := []
    modifiedTime := 9
    messageCount := 1
    lastMessageTimestamp := none }

/-- C4 counterexample: the persisted entry for c1 carries
`lastAnalyzed = "A2024"` and `needsAnalysis: false` (written by the
analysis pass); a new conversation c2 appears, so the merge rewrites the
document — and in the rewritten document c1's entry has no
`lastAnalyzed` and no `needsAnalysis` field at all: the analysis-written
fields did not survive the rewrite, contrary to the claim. -/
theorem C4_counterexample :
    mergeWritten [exThreadAnalyzed]
      [(sLit "p", [exChatC1v, exChatNew])] = true ∧
    (lookupThread [exThreadAnalyzed] (sLit "p") (sLit "c1")).bind
      Thread.lastAnalyzed = some (sLit "A2024") ∧
    (lookupThread [exThreadAnalyzed] (sLit "p") (sLit "c1")).bind
      Thread.needsAnalysis = some false ∧
    (lookupThread
        (persistedAfter [exThreadAnalyzed]
          [(sLit "p", [exChatC1v, exChatNew])])
        (sLit "p") (sLit "c1")).bind Thread.lastAnalyzed = none ∧
    (lookupThread
        (persistedAfter [exThreadAnalyzed]
          [(sLit "p", [exChatC1v, exChatNew])])
        (sLit "p") (sLit "c1")).bind Thread.needsAnalysis = none := by
  decide

/-- A never-analyzed observation (fresh log, no summaries yet). -/
def exChatFresh : Chat :=
  { id := sLit "c9"
    summary := []
    firstMessage := []
    modifiedTime := 0
    messageCount := 1
    lastMessageTimestamp := none }

/-- C1 counterexample: starting from an empty persisted index and one
observed conversation, the first merge writes the document; running the
merge a second time on the unchanged input reports `hasChanges = true`
again — the entry still lacks `oneLineSummary`/`paragraphSummary`, which
only the analysis pass ever supplies and which re-trigger the changed
mark — even though the document it would rewrite is identical.  The
claim's "changed = false the second time" is false. -/
theorem C1_counterexample :
    (mergeIndex (persistedAfter [] [(sLit "p", [exChatFresh])])
      [(sLit "p", [exChatFresh])]).2 = true ∧
    (mergeIndex (persistedAfter [] [(sLit "p", [exChatFresh])])
      [(sLit "p", [exChatFresh])]).1 =
      persistedAfter [] [(sLit "p", [exChatFresh])] := by
  decide

theorem find?_eq_of_mem_of_unique (pred : α → Bool) :
    ∀ (l : List α) (x : α), x ∈ l → pred x = true → l.countP pred ≤ 1 →
      l.find? pred = some x := by
  intro l
  induction l with
  | nil => intro x hx; intro _ _; simp at hx
  | cons y ys ih =>
    intro x hx hpx hcount
    by_cases hy : pred y = true
    · have hxy : x = y := by
        rcases List.mem_cons.mp hx with h | h
        · exact h
        · exfalso
          have h1 : 0 < ys.countP pred :=
            List.countP_pos_iff.mpr ⟨x, h, hpx⟩
          have h2 : (y :: ys).countP pred = ys.countP pred + 1 := by
            simp [List.countP_cons, hy]
          omega
      rw [List.find?_cons_of_pos _ hy, hxy]
    · have hxmem : x ∈ ys := by
        rcases List.mem_cons.mp hx with h | h
        · exact absurd (h ▸ hpx) (by simpa using hy)
        · exact h
      rw [List.find?_cons_of_neg _ hy]
      refine ih x hxmem hpx ?_
      have h2 : (y :: ys).countP pred = ys.countP pred := by
        simp [List.countP_cons, hy]
      omega

theorem lookupThread_eq (index : List Thread) (p idv : JStr) (e : Thread)
    (hmem : e ∈ index) (hp : e.project = p) (hid : e.id = idv)
    (hcount : index.countP (fun t => t.project = p ∧ t.id = idv) ≤ 1) :
    lookupThread index p idv = some e := by
  unfold lookupThread
  refine find?_eq_of_mem_of_unique _ index.reverse e
    (List.mem_reverse.mpr hmem) (by simp [hp, hid]) ?_
  have hperm : index.reverse.Perm index := List.reverse_perm index
  rw [hperm.countP_eq]
  exact hcount

theorem countP_key_le_one_of_nodup (l : List Thread)
    (h : (l.map keyOf).Nodup) (k : JStr × JStr) :
    l.countP (fun t => keyOf t = k) ≤ 1 := by
  induction l with
  | nil => simp
  | cons t ts ih =>
    simp only [List.map_cons, List.nodup_cons] at h
    by_cases hk : keyOf t = k
    · have hc : (t :: ts).countP (fun t' => keyOf t' = k) =
          ts.countP (fun t' => keyOf t' = k) + 1 := by
        simp [List.countP_cons, hk]
      rw [hc]
      have hz : ts.countP (fun t' => keyOf t' = k) = 0 := by
        rw [List.countP_eq_zero]
        intro t' ht' hkt'
        have hkk : keyOf t' = k := by simpa using hkt'
        exact h.1 ((hk.trans hkk.symm) ▸ List.mem_map_of_mem keyOf ht')
      omega
    · have hc : (t :: ts).countP (fun t' => keyOf t' = k) =
          ts.countP (fun t' => keyOf t' = k) := by
        simp [List.countP_cons, hk]
      rw [hc]
      exact ih h.2

theorem mergeIndex_countP_key (ex : List Thread)
    (chats : List (JStr × List Chat)) (hkeys : (chatKeys chats).Nodup)
    (p idv : JStr) :
    (mergeIndex ex chats).1.countP
      (fun t => t.project = p ∧ t.id = idv) ≤ 1 := by
  have hnodup : (((mergeIndex ex chats).1).map keyOf).Nodup :=
    (mergeIndex_keys ex chats).nodup_iff.mpr hkeys
  have h1 := countP_key_le_one_of_nodup _ hnodup (p, idv)
  have hbr : (mergeIndex ex chats).1.countP
        (fun t => t.project = p ∧ t.id = idv) =
      (mergeIndex ex chats).1.countP (fun t => keyOf t = (p, idv)) := by
    apply List.countP_congr
    intro t _
    simp [keyOf, Prod.ext_iff]
  rw [hbr]
  exact h1

/-- C1 amended: re-running the merge on unchanged input leaves the
persisted document identical, and reports `changed = false` the second
time provided every entry of the first merge's document carries a
non-empty `oneLineSummary` and `paragraphSummary` (i.e. after the
analysis pass has filled them; without them the entry is re-marked
`needsAnalysis` and `hasChanges` is raised again even though the
rewritten bytes are identical); the observed `(project, id)` keys are
assumed distinct, as the object/filename structure guarantees.  The
document is rewritten only when an entry was marked changed or the entry
count differs — that is `mergeWritten`'s definition. -/
theorem C1_merge_idempotent (existingIndex : List Thread)
    (chats : List (JStr × List Chat))
    (hkeys : (chatKeys chats).Nodup)
    (hsum : ∀ t ∈ (mergeIndex existingIndex chats).1,
      truthyS t.oneLineSummary = true ∧ truthyS t.paragraphSummary = true) :
    (mergeIndex (persistedAfter existingIndex chats) chats).2 = false ∧
    mergeWritten (persistedAfter existingIndex chats) chats = false ∧
    persistedAfter (persistedAfter existingIndex chats) chats =
      persistedAfter existingIndex chats := by
  by_cases hw : mergeWritten existingIndex chats = true
  · have hP1 : persistedAfter existingIndex chats =
        (mergeIndex existingIndex chats).1 := by
      unfold persistedAfter
      rw [if_pos hw]
    have hEC : ∀ pc ∈ chats, ∀ c ∈ pc.2,
        entryChanged (mergeIndex existingIndex chats).1 pc.1 c = false := by
      intro pc hpc c hc
      have hmem := buildEntry_mem existingIndex chats pc c hpc hc
      have hlk : lookupThread (mergeIndex existingIndex chats).1 pc.1 c.id =
          some (buildEntry existingIndex pc.1 c) :=
        lookupThread_eq _ _ _ _ hmem rfl rfl
          (mergeIndex_countP_key existingIndex chats hkeys pc.1 c.id)
      have hs := hsum _ hmem
      unfold entryChanged
      rw [hlk]
      have hmc : (buildEntry existingIndex pc.1 c).messageCount =
          c.messageCount := rfl
      have hts : (buildEntry existingIndex pc.1 c).lastMessageTimestamp =
          c.lastMessageTimestamp := rfl
      simp [hmc, hts, hs.1, hs.2]
    have hch2 : (mergeIndex (mergeIndex existingIndex chats).1 chats).2 =
        false := by
      show (chats.any fun pc =>
        pc.2.any (entryChanged (mergeIndex existingIndex chats).1 pc.1)) =
          false
      simp only [List.any_eq_false]
      intro pc hpc hany
      rw [List.any_eq_true] at hany
      rcases hany with ⟨c, hc, hcc⟩
      rw [hEC pc hpc c hc] at hcc
      exact Bool.false_ne_true hcc
    have hlen2 :
        (mergeIndex (mergeIndex existingIndex chats).1 chats).1.length =
        (mergeIndex existingIndex chats).1.length := by
      rw [mergeIndex_length, mergeIndex_length]
    have hW2 : mergeWritten (mergeIndex existingIndex chats).1 chats =
        false := by
      unfold mergeWritten
      rw [hch2, hlen2]
      simp
    rw [hP1]
    refine ⟨hch2, hW2, ?_⟩
    unfold persistedAfter
    rw [hW2]
    simp
  · have hW : mergeWritten existingIndex chats = false :=
      Bool.not_eq_true _ ▸ hw
    have hP1 : persistedAfter existingIndex chats = existingIndex := by
      unfold persistedAfter
      rw [hW]
      simp
    have hch : (mergeIndex existingIndex chats).2 = false := by
      by_cases h2 : (mergeIndex existingIndex chats).2 = true
      · exfalso
        apply hw
        unfold mergeWritten
        rw [h2]
        simp
      · exact Bool.not_eq_true _ ▸ h2
    rw [hP1]
    exact ⟨hch, hW, hP1⟩

/-- C1 witness: the amended idempotence applied to a concrete analyzed
persisted index and its unchanged observation. -/
theorem C1_merge_idempotent_witness :
    (mergeIndex
        (persistedAfter [exThreadAnalyzed] [(sLit "p", [exChatC1v])])
        [(sLit "p", [exChatC1v])]).2 = false ∧
    mergeWritten
        (persistedAfter [exThreadAnalyzed] [(sLit "p", [exChatC1v])])
        [(sLit "p", [exChatC1v])] = false ∧
    persistedAfter
        (persistedAfter [exThreadAnalyzed] [(sLit "p", [exChatC1v])])
        [(sLit "p", [exChatC1v])] =
      persistedAfter [exThreadAnalyzed] [(sLit "p", [exChatC1v])] :=
  C1_merge_idempotent [exThreadAnalyzed] [(sLit "p", [exChatC1v])]
    (by decide) (by decide)
